import Mathlib

/-!
Shallow embedding of the text-chunking, history-trimming, chat-window,
streaming-persistence and sidebar chunk-management logic of the
`agente_python_streamlit_conKimiK2` repository (`src/utils.py`,
`src/main.py`, `src/app/core/utils.py`, `src/app/llm/llm_handler.py`,
`src/app/ui/components.py`).

Text is modelled as `List Char`; Python `int` as `Int` where the sign can
matter (the `chunk_size` parameter, the sidebar threshold) and as `Nat` for
cursors, lengths and fuel.
-/

/-- Python slice `t[i:e]` for `0 ≤ i ≤ e`. -/
def pySlice (t : List Char) (i e : Nat) : List Char :=
  (t.drop i).take (e - i)

/-- Python `t.rfind("\n", i, e)`: the greatest index `j` with `i ≤ j < e`
and `t[j] = '\n'`, as an `Option Nat` (`none` stands for Python's `-1`).
The search counts down from `e - 1`. -/
def rfindNl (t : List Char) (i : Nat) : Nat → Option Nat
  | 0 => none
  | e + 1 => if i ≤ e ∧ t.getD e ' ' = '\n' then some e else rfindNl t i e

/-- The end position chosen by one iteration of the `while` loop of
`chunk_text` (src/utils.py lines 95-105): `end = min(i + chunk_size, n)`,
moved back to the last newline of the window whenever that newline lies
strictly past `i + int(0.6 * chunk_size)`.  Python's `int(0.6 * chunk_size)`
is modelled as the floor `6 * csize / 10`; the float computation agrees with
this at every value the claims touch (in particular `int(0.6 * 55) = 33`). -/
def stepEnd (t : List Char) (csize i : Nat) : Nat :=
  match rfindNl t i (min (i + csize) t.length) with
  | some p => if i + 6 * csize / 10 < p then p else min (i + csize) t.length
  | none => min (i + csize) t.length

/-- The `while i < n` loop of `chunk_text`, with explicit fuel.  Once
`1 ≤ csize` every iteration advances the cursor by at least one character,
so fuel `t.length` always suffices (`chunkLoop_join` proves the run is
complete: the emitted chunks exhaust the text). -/
def chunkLoop (t : List Char) (csize : Nat) : Nat → Nat → List (List Char)
  | 0, _ => []
  | fuel + 1, i =>
    if i < t.length then
      pySlice t i (stepEnd t csize i) :: chunkLoop t csize fuel (stepEnd t csize i)
    else []

/-- `chunk_text` from src/utils.py lines 88-106 (byte-identical copies live
in src/main.py and src/app/core/utils.py):
`if chunk_size <= 0 or not text: return [text] if text else []`, then the
newline-snapping loop. -/
def chunk_text (text : List Char) (chunk_size : Int) : List (List Char) :=
  if chunk_size ≤ 0 ∨ text = [] then
    if text = [] then [] else [text]
  else
    chunkLoop text chunk_size.toNat text.length 0

/-- `estimate_tokens` from src/utils.py: `max(1, len(text) // 4)` for
non-empty text, `0` for empty text. -/
def estimate_tokens (text : List Char) : Nat :=
  if text = [] then 0 else max 1 (text.length / 4)

/-- A chat message: the `{"role": ..., "content": ...}` dicts of
src/main.py, with the content kept as a character list. -/
structure Msg where
  role : String
  content : List Char
deriving DecidableEq

/-- Total content length of a message list:
`sum(len(m["content"]) for m in msgs)`. -/
def sumLen (msgs : List Msg) : Nat :=
  (msgs.map (fun m => m.content.length)).sum

/-- The `for m in reversed(tail): ... if total + c > max_chars: break ...`
accumulation loop of `build_messages_with_limit` (src/main.py lines 604-616
and src/app/llm/llm_handler.py lines 49-54), acting on the already-reversed
tail with running total `total`. -/
def takeWhileBudget (maxChars : Nat) : List Msg → Nat → List Msg
  | [], _ => []
  | m :: rest, total =>
    if maxChars < total + m.content.length then []
    else m :: takeWhileBudget maxChars rest (total + m.content.length)

/-- `build_messages_with_limit(messages, max_chars)` from src/main.py lines
602-617 (the src/app/llm/llm_handler.py copy computes the same list): keep
`messages[0]`, then the selected tail messages restored to chronological
order. -/
def build_messages_with_limit (messages : List Msg) (maxChars : Nat) :
    List Msg :=
  match messages with
  | [] => []
  | sys :: tail => sys :: (takeWhileBudget maxChars tail.reverse 0).reverse

/-- Python `history[-window_size:]` on a list: the whole list when
`window_size = 0` (since `-0 = 0`), otherwise the last `window_size`
elements. -/
def pyLastSlice (l : List Msg) (ws : Nat) : List Msg :=
  if ws = 0 then l else l.drop (l.length - ws)

/-- The user-append step of the chat turn (src/main.py lines 589-596 and
src/app/ui/components.py lines 245-253): append the user message, then if
the non-system history exceeds `window_size`, keep the system message plus
the last `window_size` history messages. -/
def append_user (ws : Nat) (msgs : List Msg) (c : List Char) : List Msg :=
  let appended := msgs ++ [⟨"user", c⟩]
  let history := appended.drop 1
  if ws < history.length then appended.take 1 ++ pyLastSlice history ws
  else appended

/-- The assistant-append step (src/main.py lines 626-628 and
src/app/ui/components.py lines 266-269): the assistant message is appended
with no trimming afterwards. -/
def append_assistant (msgs : List Msg) (c : List Char) : List Msg :=
  msgs ++ [⟨"assistant", c⟩]

/-- One full chat turn: a user append (with the window trim) followed by
the assistant append (untrimmed). -/
def runTurn (ws : Nat) (msgs : List Msg) (t : List Char × List Char) :
    List Msg :=
  append_assistant (append_user ws msgs t.1) t.2

/-- Any number of chat turns in sequence. -/
def runTurns (ws : Nat) : List Msg → List (List Char × List Char) → List Msg
  | msgs, [] => msgs
  | msgs, t :: ts => runTurns ws (runTurn ws msgs t) ts

/-- The fixed error text yielded by `stream_handler` (src/main.py line 545)
when the streaming iteration raises. -/
def streamErrorText : List Char := "Error procesando la respuesta.".data

/-- The sequence of strings yielded by `stream_handler` (src/main.py lines
524-547): every non-empty content chunk the upstream stream delivered before
finishing or raising, followed by the fixed error text when the iteration
raised (`except Exception: ... yield "Error procesando la respuesta."`).
`delivered` is the list of content fields the stream produced before the
end of iteration or the exception; `raises` tells which of the two
happened. -/
def stream_handler_yields (delivered : List (List Char)) (raises : Bool) :
    List (List Char) :=
  delivered.filter (fun c => !c.isEmpty)
    ++ (if raises then [streamErrorText] else [])

/-- The assistant message persisted by one turn of `render_chat_interface`
(src/main.py lines 611-636): when the initial
`client.chat.completions.create` call itself raises `APIStatusError`
(`createFails`), the handler shows the error and persists nothing; otherwise
`full_response = "".join(stream_handler(stream))` is always appended to the
session history and saved with `save_message("assistant", full_response)`,
whether or not the stream raised partway through. -/
def turn_persisted (createFails : Bool) (delivered : List (List Char))
    (raises : Bool) : Option (List Char) :=
  if createFails then none
  else some (stream_handler_yields delivered raises).flatten

/-- The chunk-state update of `render_sidebar` (src/main.py lines 461-475;
src/app/ui/components.py lines 216-225 is the same logic): when the file
needs chunking (`len(full) > chunk_chars`), chunks are (re)generated only if
`file_chunks is None or (file_chunks and len(file_chunks[0]) > chunk_chars)`,
in which case `chunk_index` resets to 0; in every other case chunks and
index are left untouched. -/
def update_chunks (full : List Char) (chunks : Option (List (List Char)))
    (idx : Nat) (chunkChars : Int) : Option (List (List Char)) × Nat :=
  if (full.length : Int) > chunkChars then
    match chunks with
    | none => (some (chunk_text full chunkChars), 0)
    | some chs =>
      if chs ≠ [] ∧ ((chs.headD []).length : Int) > chunkChars then
        (some (chunk_text full chunkChars), 0)
      else (some chs, idx)
  else (chunks, idx)

/-- The visible file context chosen by `render_sidebar` (src/main.py lines
466-505): the selected chunk when the file needs chunking, the whole text
otherwise (`st.session_state.file_context = st.session_state.file_context_full`). -/
def visible_context (full : List Char) (chunks : Option (List (List Char)))
    (idx : Nat) (chunkChars : Int) : List Char :=
  if (full.length : Int) > chunkChars then
    match update_chunks full chunks idx chunkChars with
    | (some chs, i) => chs.getD i []
    | (none, _) => []
  else full

/-- The spec's worked example for the newline snap: 50 `'a'`s, a newline,
then 10 `'b'`s. -/
def c5T : List Char := List.replicate 50 'a' ++ '\n' :: List.replicate 10 'b'

/-- The spec's trim example: system message `"S"`. -/
def c6sys : Msg := ⟨"system", "S".data⟩

/-- The spec's trim example: user message `"A"` of 4000 characters. -/
def c6A : Msg := ⟨"user", List.replicate 4000 'a'⟩

/-- The spec's trim example: assistant message `"B"` of 4000 characters. -/
def c6B : Msg := ⟨"assistant", List.replicate 4000 'b'⟩

/-- The spec's trim example: user message `"C"` of 4000 characters. -/
def c6C : Msg := ⟨"user", List.replicate 4000 'c'⟩

/-- A 30-character file body used for the re-chunking counterexample. -/
def c8full : List Char := List.replicate 30 'x'

/-- A small system message for witness instantiations. -/
def wSys : Msg := ⟨"system", "S".data⟩

/-- A small user message for witness instantiations. -/
def wUser : Msg := ⟨"user", "hi".data⟩

theorem rfindNl_spec {t : List Char} {i : Nat} :
    ∀ {e p : Nat}, rfindNl t i e = some p →
      i ≤ p ∧ p < e ∧ t.getD p ' ' = '\n' := by
  intro e
  induction e with
  | zero => intro p h; simp [rfindNl] at h
  | succ e ih =>
    intro p h
    rw [rfindNl] at h
    by_cases hc : i ≤ e ∧ t.getD e ' ' = '\n'
    · rw [if_pos hc] at h
      cases h
      exact ⟨hc.1, Nat.lt_succ_self _, hc.2⟩
    · rw [if_neg hc] at h
      obtain ⟨h1, h2, h3⟩ := ih h
      exact ⟨h1, Nat.lt_succ_of_lt h2, h3⟩

theorem stepEnd_le (t : List Char) (csize i : Nat) :
    stepEnd t csize i ≤ min (i + csize) t.length := by
  unfold stepEnd
  rcases hr : rfindNl t i (min (i + csize) t.length) with _ | p
  · exact Nat.le_refl _
  · show (if i + 6 * csize / 10 < p then p else min (i + csize) t.length)
        ≤ min (i + csize) t.length
    by_cases hs : i + 6 * csize / 10 < p
    · rw [if_pos hs]
      exact Nat.le_of_lt (rfindNl_spec hr).2.1
    · rw [if_neg hs]

theorem lt_stepEnd (t : List Char) (csize i : Nat) (hc : 1 ≤ csize)
    (hi : i < t.length) : i < stepEnd t csize i := by
  unfold stepEnd
  rcases hr : rfindNl t i (min (i + csize) t.length) with _ | p
  · exact lt_min (Nat.lt_add_of_pos_right hc) hi
  · show i < if i + 6 * csize / 10 < p then p else min (i + csize) t.length
    by_cases hs : i + 6 * csize / 10 < p
    · rw [if_pos hs]
      exact Nat.lt_of_le_of_lt (Nat.le_add_right i _) hs
    · rw [if_neg hs]
      exact lt_min (Nat.lt_add_of_pos_right hc) hi

theorem pySlice_append_drop (t : List Char) {i e : Nat} (h : i ≤ e) :
    pySlice t i e ++ t.drop e = t.drop i := by
  have hdd : (t.drop i).drop (e - i) = t.drop e := by
    rw [List.drop_drop, Nat.add_sub_cancel' h]
  calc pySlice t i e ++ t.drop e
      = (t.drop i).take (e - i) ++ (t.drop i).drop (e - i) := by
        rw [hdd]; rfl
    _ = t.drop i := List.take_append_drop _ _

theorem chunkLoop_join (t : List Char) (csize : Nat) (hc : 1 ≤ csize) :
    ∀ fuel i, i ≤ t.length → t.length - i ≤ fuel →
      (chunkLoop t csize fuel i).flatten = t.drop i := by
  intro fuel
  induction fuel with
  | zero =>
    intro i hi hf
    have hie : i = t.length := by omega
    simp [chunkLoop, hie, List.drop_length]
  | succ fuel ih =>
    intro i hi hf
    by_cases hlt : i < t.length
    · have he1 : i < stepEnd t csize i := lt_stepEnd t csize i hc hlt
      have he2 : stepEnd t csize i ≤ t.length :=
        le_trans (stepEnd_le t csize i) (min_le_right _ _)
      have hrec : (chunkLoop t csize fuel (stepEnd t csize i)).flatten
          = t.drop (stepEnd t csize i) := ih _ he2 (by omega)
      simp only [chunkLoop, if_pos hlt, List.flatten_cons, hrec]
      exact pySlice_append_drop t (le_of_lt he1)
    · have hie : i = t.length := by omega
      simp [chunkLoop, hlt, hie, List.drop_length]

theorem chunkLoop_chunk_le (t : List Char) (csize : Nat) :
    ∀ fuel i c, c ∈ chunkLoop t csize fuel i → c.length ≤ csize := by
  intro fuel
  induction fuel with
  | zero => intro i c h; simp [chunkLoop] at h
  | succ fuel ih =>
    intro i c h
    by_cases hlt : i < t.length
    · simp only [chunkLoop, if_pos hlt, List.mem_cons] at h
      rcases h with h | h
      · have hlen : c.length ≤ stepEnd t csize i - i := by
          rw [h]
          unfold pySlice
          rw [List.length_take]
          exact min_le_left _ _
        have : stepEnd t csize i ≤ i + csize :=
          le_trans (stepEnd_le t csize i) (min_le_left _ _)
        omega
      · exact ih _ _ h
    · simp [chunkLoop, hlt] at h

theorem chunkLoop_ne_nil (t : List Char) (csize : Nat) (hc : 1 ≤ csize) :
    ∀ fuel i c, c ∈ chunkLoop t csize fuel i → c ≠ [] := by
  intro fuel
  induction fuel with
  | zero => intro i c h; simp [chunkLoop] at h
  | succ fuel ih =>
    intro i c h
    by_cases hlt : i < t.length
    · simp only [chunkLoop, if_pos hlt, List.mem_cons] at h
      rcases h with h | h
      · have he1 : i < stepEnd t csize i := lt_stepEnd t csize i hc hlt
        have : 0 < c.length := by
          rw [h]
          unfold pySlice
          rw [List.length_take, List.length_drop]
          omega
        exact List.ne_nil_of_length_pos this
      · exact ih _ _ h
    · simp [chunkLoop, hlt] at h

theorem chunkLoop_count_le (t : List Char) (csize : Nat) (hc : 1 ≤ csize) :
    ∀ fuel i, (chunkLoop t csize fuel i).length ≤ t.length - i := by
  intro fuel
  induction fuel with
  | zero => intro i; simp [chunkLoop]
  | succ fuel ih =>
    intro i
    by_cases hlt : i < t.length
    · have he1 : i < stepEnd t csize i := lt_stepEnd t csize i hc hlt
      have he2 : stepEnd t csize i ≤ t.length :=
        le_trans (stepEnd_le t csize i) (min_le_right _ _)
      have := ih (stepEnd t csize i)
      simp only [chunkLoop, if_pos hlt, List.length_cons]
      omega
    · simp [chunkLoop, hlt]

theorem chunk_text_join (text : List Char) (M : Int) :
    (chunk_text text M).flatten = text := by
  unfold chunk_text
  by_cases h : M ≤ 0 ∨ text = []
  · rw [if_pos h]
    by_cases ht : text = []
    · simp [ht]
    · simp [ht]
  · rw [if_neg h]
    push_neg at h
    have hc : 1 ≤ M.toNat := by omega
    have := chunkLoop_join text M.toNat hc text.length 0 (Nat.zero_le _)
      (by omega)
    simpa using this

theorem chunk_text_mem_ne_nil {text : List Char} {M : Int} {c : List Char}
    (h : c ∈ chunk_text text M) : c ≠ [] := by
  unfold chunk_text at h
  by_cases hz : M ≤ 0 ∨ text = []
  · rw [if_pos hz] at h
    by_cases ht : text = []
    · simp [ht] at h
    · simp [ht] at h
      subst h
      exact ht
  · rw [if_neg hz] at h
    push_neg at hz
    have hc : 1 ≤ M.toNat := by omega
    exact chunkLoop_ne_nil text M.toNat hc _ _ _ h


theorem sumLen_cons (m : Msg) (l : List Msg) :
    sumLen (m :: l) = m.content.length + sumLen l := by
  simp [sumLen]

theorem sumLen_reverse (l : List Msg) : sumLen l.reverse = sumLen l := by
  simp [sumLen, List.map_reverse, List.sum_reverse]

theorem takeWhileBudget_sum (B : Nat) :
    ∀ (l : List Msg) (total : Nat), total ≤ B →
      total + sumLen (takeWhileBudget B l total) ≤ B := by
  intro l
  induction l with
  | nil => intro total ht; simpa [takeWhileBudget, sumLen] using ht
  | cons m rest ih =>
    intro total ht
    rw [takeWhileBudget]
    by_cases hb : B < total + m.content.length
    · rw [if_pos hb]
      simpa [sumLen] using ht
    · rw [if_neg hb]
      have := ih (total + m.content.length) (Nat.le_of_not_lt hb)
      rw [sumLen_cons]
      omega

theorem takeWhileBudget_eq_append (B : Nat) :
    ∀ (l : List Msg) (total : Nat),
      ∃ q, l = takeWhileBudget B l total ++ q := by
  intro l
  induction l with
  | nil => intro total; exact ⟨[], rfl⟩
  | cons m rest ih =>
    intro total
    rw [takeWhileBudget]
    by_cases hb : B < total + m.content.length
    · rw [if_pos hb]
      exact ⟨m :: rest, rfl⟩
    · rw [if_neg hb]
      obtain ⟨q, hq⟩ := ih (total + m.content.length)
      exact ⟨q, by rw [List.cons_append, ← hq]⟩

theorem takeWhileBudget_max_len (B : Nat) :
    ∀ (l : List Msg) (total m : Nat), m ≤ l.length →
      total + sumLen (l.take m) ≤ B →
      m ≤ (takeWhileBudget B l total).length := by
  intro l
  induction l with
  | nil => intro total m hm _; simpa [takeWhileBudget] using hm
  | cons x rest ih =>
    intro total m hm hsum
    cases m with
    | zero => exact Nat.zero_le _
    | succ m =>
      rw [List.take_succ_cons, sumLen_cons] at hsum
      have hx : total + x.content.length ≤ B := by
        have : 0 ≤ sumLen (rest.take m) := Nat.zero_le _
        omega
      rw [takeWhileBudget, if_neg (Nat.not_lt.mpr hx)]
      rw [List.length_cons]
      have := ih (total + x.content.length) m
        (by simpa using Nat.le_of_succ_le_succ hm) (by omega)
      omega

theorem build_messages_sum_le (H : List Msg) (B : Nat) :
    sumLen ((build_messages_with_limit H B).drop 1) ≤ B := by
  cases H with
  | nil => simp [build_messages_with_limit, sumLen]
  | cons sys tail =>
    show sumLen (takeWhileBudget B tail.reverse 0).reverse ≤ B
    rw [sumLen_reverse]
    have := takeWhileBudget_sum B tail.reverse 0 (Nat.zero_le B)
    omega

theorem build_messages_head (H : List Msg) (B : Nat) (h : H ≠ []) :
    (build_messages_with_limit H B).head? = H.head? := by
  cases H with
  | nil => exact absurd rfl h
  | cons sys tail => rfl

theorem build_messages_drop_eq_drop (H : List Msg) (B : Nat) :
    ∃ k, (build_messages_with_limit H B).drop 1 = (H.drop 1).drop k := by
  cases H with
  | nil => exact ⟨0, rfl⟩
  | cons sys tail =>
    obtain ⟨q, hq⟩ := takeWhileBudget_eq_append B tail.reverse 0
    refine ⟨q.reverse.length, ?_⟩
    show (takeWhileBudget B tail.reverse 0).reverse = tail.drop q.reverse.length
    have htail : tail = q.reverse ++ (takeWhileBudget B tail.reverse 0).reverse := by
      have := congrArg List.reverse hq
      rw [List.reverse_reverse, List.reverse_append] at this
      exact this
    conv_rhs => rw [htail]
    rw [List.drop_left]

theorem build_messages_longest (H : List Msg) (B : Nat) (j : Nat)
    (hj : sumLen ((H.drop 1).drop j) ≤ B) :
    ((H.drop 1).drop j).length ≤ ((build_messages_with_limit H B).drop 1).length := by
  cases H with
  | nil => simp
  | cons sys tail =>
    show ((tail.drop j).length) ≤ (takeWhileBudget B tail.reverse 0).reverse.length
    rw [List.length_reverse]
    by_cases hjl : j ≤ tail.length
    · have hrev : (tail.drop j).reverse = tail.reverse.take (tail.length - j) := by
        rw [List.reverse_drop]
      have hsum : sumLen (tail.reverse.take (tail.length - j)) ≤ B := by
        rw [← hrev, sumLen_reverse]
        simpa using hj
      have hlen : tail.length - j ≤ tail.reverse.length := by
        rw [List.length_reverse]; omega
      have := takeWhileBudget_max_len B tail.reverse 0 (tail.length - j)
        hlen (by simpa using hsum)
      rw [List.length_drop]
      omega
    · rw [List.drop_eq_nil_of_le (by omega : tail.length ≤ j)]
      exact Nat.zero_le _

theorem append_user_length_le (ws : Nat) (hw : 1 ≤ ws) (msgs : List Msg)
    (c : List Char) : (append_user ws msgs c).length ≤ ws + 1 := by
  simp only [append_user, pyLastSlice]
  by_cases h : ws < ((msgs ++ [(⟨"user", c⟩ : Msg)]).drop 1).length
  · rw [if_pos h, if_neg (by omega : ¬ ws = 0)]
    rw [List.length_drop] at h
    rw [List.length_append] at h
    simp only [List.length_append, List.length_take, List.length_drop]
    omega
  · rw [if_neg h]
    rw [List.length_drop, List.length_append] at h
    rw [List.length_append]
    simp only [List.length_cons, List.length_nil] at h ⊢
    omega

theorem runTurn_length_le (ws : Nat) (hw : 1 ≤ ws) (msgs : List Msg)
    (t : List Char × List Char) : (runTurn ws msgs t).length ≤ ws + 2 := by
  unfold runTurn append_assistant
  rw [List.length_append]
  have := append_user_length_le ws hw msgs t.1
  simp only [List.length_cons, List.length_nil]
  omega

theorem runTurns_cons_length_le (ws : Nat) (hw : 1 ≤ ws) :
    ∀ (ts : List (List Char × List Char)) (msgs : List Msg)
      (t : List Char × List Char),
      (runTurns ws msgs (t :: ts)).length ≤ ws + 2 := by
  intro ts
  induction ts with
  | nil => intro msgs t; exact runTurn_length_le ws hw msgs t
  | cons t' ts' ih =>
    intro msgs t
    show (runTurns ws (runTurn ws msgs t) (t' :: ts')).length ≤ ws + 2
    exact ih (runTurn ws msgs t) t'

theorem flatten_filter_nonempty (delivered : List (List Char)) :
    (delivered.filter (fun c => !c.isEmpty)).flatten = delivered.flatten := by
  induction delivered with
  | nil => rfl
  | cons c l ih =>
    rw [List.filter_cons]
    by_cases hc : c.isEmpty
    · have hnil : c = [] := List.isEmpty_iff.mp hc
      rw [hc]
      simp only [Bool.not_true, if_neg (by simp : ¬ (false = true))]
      rw [List.flatten_cons, hnil, List.nil_append, ih]
    · have : (!c.isEmpty) = true := by
        rw [Bool.not_eq_true'] at *
        simpa using hc
      rw [if_pos this, List.flatten_cons, List.flatten_cons, ih]

theorem turn_persisted_raises (delivered : List (List Char)) :
    turn_persisted false delivered true
      = some (delivered.flatten ++ streamErrorText) := by
  unfold turn_persisted stream_handler_yields
  rw [if_neg (by simp : ¬ (false = true))]
  rw [if_pos rfl, List.flatten_append, flatten_filter_nonempty]
  simp

theorem update_chunks_regen (full : List Char)
    (chunks : Option (List (List Char))) (idx : Nat) (cc : Int)
    (hneed : (full.length : Int) > cc)
    (htrig : chunks = none ∨ ∃ chs, chunks = some chs ∧ chs ≠ [] ∧
      ((chs.headD []).length : Int) > cc) :
    update_chunks full chunks idx cc = (some (chunk_text full cc), 0) := by
  unfold update_chunks
  rw [if_pos hneed]
  rcases htrig with h | ⟨chs, hchs, h1, h2⟩
  · rw [h]
  · rw [hchs]
    show (if chs ≠ [] ∧ ((chs.headD []).length : Int) > cc then _ else _) = _
    rw [if_pos ⟨h1, h2⟩]

theorem update_chunks_keep (full : List Char) (chs : List (List Char))
    (idx : Nat) (cc : Int)
    (hneed : (full.length : Int) > cc)
    (hno : ¬ (chs ≠ [] ∧ ((chs.headD []).length : Int) > cc)) :
    update_chunks full (some chs) idx cc = (some chs, idx) := by
  unfold update_chunks
  rw [if_pos hneed]
  show (if chs ≠ [] ∧ ((chs.headD []).length : Int) > cc then _ else _) = _
  rw [if_neg hno]

theorem chunk_text_nonpos (full : List Char) (cc : Int) (hcc : cc ≤ 0)
    (hfull : full ≠ []) : chunk_text full cc = [full] := by
  unfold chunk_text
  rw [if_pos (Or.inl hcc), if_neg hfull]

theorem visible_context_fallback (full : List Char)
    (chunks : Option (List (List Char))) (idx : Nat) (cc : Int)
    (hcc : cc ≤ 0) (hfull : full ≠ [])
    (hok : chunks = none ∨ ∃ chs, chunks = some chs ∧
      0 < (chs.headD []).length) :
    visible_context full chunks idx cc = full := by
  have hlen : 0 < full.length := List.length_pos.mpr hfull
  have hneed : (full.length : Int) > cc := by omega
  have htrig : chunks = none ∨ ∃ chs, chunks = some chs ∧ chs ≠ [] ∧
      ((chs.headD []).length : Int) > cc := by
    rcases hok with h | ⟨chs, hchs, hpos⟩
    · exact Or.inl h
    · refine Or.inr ⟨chs, hchs, ?_, by omega⟩
      intro hnil
      rw [hnil] at hpos
      simp at hpos
  unfold visible_context
  rw [if_pos hneed, update_chunks_regen full chunks idx cc hneed htrig]
  rw [chunk_text_nonpos full cc hcc hfull]
  rfl

/-- Claim C1 (confirmed): chunk round-trip — for every text `T` and every
`max_chars M > 0`, concatenating the elements of `chunk_text T M` in order
yields exactly `T`, with no characters dropped or duplicated. -/
theorem chunk_round_trip (T : List Char) (M : Int) (hM : 0 < M) :
    (chunk_text T M).flatten = T :=
  chunk_text_join T M

/-- Witness for `chunk_round_trip` at `T = "hello world"`, `M = 3`. -/
theorem chunk_round_trip_witness :
    (0 : Int) < 3 ∧
    (chunk_text "hello world".data 3).flatten = "hello world".data :=
  ⟨by decide, chunk_round_trip "hello world".data 3 (by decide)⟩

/-- Claim C2 (confirmed): trim budget invariant — for every history `H` and
budget `B`, `build_messages_with_limit H B` keeps the total content length
of everything after index 0 within `B`, and preserves `H`'s element 0
whenever `H` is non-empty. -/
theorem trim_budget_invariant (H : List Msg) (B : Nat) :
    sumLen ((build_messages_with_limit H B).drop 1) ≤ B ∧
    (H ≠ [] → (build_messages_with_limit H B).head? = H.head?) :=
  ⟨build_messages_sum_le H B, build_messages_head H B⟩

/-- Witness for `trim_budget_invariant` at a two-message history and
budget 5. -/
theorem trim_budget_invariant_witness :
    ([wSys, wUser] : List Msg) ≠ [] ∧
    sumLen ((build_messages_with_limit [wSys, wUser] 5).drop 1) ≤ 5 ∧
    (build_messages_with_limit [wSys, wUser] 5).head?
      = ([wSys, wUser] : List Msg).head? :=
  ⟨by decide, (trim_budget_invariant [wSys, wUser] 5).1,
   (trim_budget_invariant [wSys, wUser] 5).2 (by decide)⟩

/-- Claim C3 (refuted as stated): the working list length is NOT capped by
`window_size + 1` after an assistant append — with `window_size = 1`,
starting from just the system message, one user turn followed by the
assistant reply leaves 3 messages.  The code trims only after the user
append (src/main.py lines 593-596); the assistant append at lines 626-628
performs no trimming. -/
theorem window_cap_counterexample :
    ¬ (runTurns 1 [(⟨"system", []⟩ : Msg)] [(['u'], ['a'])]).length
        ≤ 1 + 1 := by decide

/-- Claim C3 (amended): for `window_size ≥ 1`, the list length is at most
`window_size + 1` immediately after any user append, and at most
`window_size + 2` after any non-empty sequence of chat turns (user append
with trim, then assistant append without trim). -/
theorem window_cap_amended (ws : Nat) (hw : 1 ≤ ws) (msgs : List Msg)
    (u : List Char) (t : List Char × List Char)
    (ts : List (List Char × List Char)) :
    (append_user ws msgs u).length ≤ ws + 1 ∧
    (runTurns ws msgs (t :: ts)).length ≤ ws + 2 :=
  ⟨append_user_length_le ws hw msgs u, runTurns_cons_length_le ws hw ts msgs t⟩

/-- Witness for `window_cap_amended` at `window_size = 1` and one turn. -/
theorem window_cap_amended_witness :
    1 ≤ 1 ∧
    (append_user 1 [(⟨"system", []⟩ : Msg)] ['u']).length ≤ 1 + 1 ∧
    (runTurns 1 [(⟨"system", []⟩ : Msg)] [(['u'], ['a'])]).length ≤ 1 + 2 :=
  ⟨by decide,
   (window_cap_amended 1 (by decide) [⟨"system", []⟩] ['u']
     (['u'], ['a']) []).1,
   (window_cap_amended 1 (by decide) [⟨"system", []⟩] ['u']
     (['u'], ['a']) []).2⟩

/-- Claim C4 (refuted as stated): when the stream raises partway through,
an assistant message IS persisted — `stream_handler` swallows the exception
and yields the fixed error text, and `render_chat_interface` saves the
joined output unconditionally.  With one delivered chunk `"Hola"` and a
mid-stream exception, the persisted message is not `none`. -/
theorem stream_error_counterexample :
    turn_persisted false ["Hola".data] true ≠ none := by decide

/-- Claim C4 (amended): on a mid-stream exception the accumulated text is
NOT discarded: the persisted assistant message is exactly the concatenation
of the delivered chunks followed by the fixed error text
`"Error procesando la respuesta."` (the error is surfaced inline in that
message); only a failure of the initial `create` call (`APIStatusError`
before streaming starts) persists no assistant message. -/
theorem stream_error_amended (delivered : List (List Char)) :
    turn_persisted false delivered true
      = some (delivered.flatten ++ streamErrorText) ∧
    ∀ (d : List (List Char)) (r : Bool), turn_persisted true d r = none :=
  ⟨turn_persisted_raises delivered, fun _ _ => rfl⟩

/-- Claim C5 (refuted as stated): on `T = "a"*50 + "\n" + "b"*10` and
`M = 55` the first chunk is exactly the 50 `'a'`s — the boundary is snapped
to the newline, but the newline character does NOT end the chunk (the code
sets `end = newline_pos`, excluding the newline from `text[i:end]`). -/
theorem newline_snap_counterexample :
    (chunk_text c5T 55).getD 0 [] = List.replicate 50 'a' ∧
    ((chunk_text c5T 55).getD 0 []).getLast? ≠ some '\n' :=
  ⟨by decide, by decide⟩

/-- Claim C5 (amended): whenever `chunk_text` snaps a boundary to a
qualifying newline at position `p`, the chunk emitted is `text[i:p]` — the
newline is excluded and begins the following chunk — and in the spec's
example the chunks are `["a"*50, "\n" + "b"*10]`, the first ending just
before the newline rather than at the hard 55-character boundary. -/
theorem newline_snap_amended (t : List Char) (csize i p fuel : Nat)
    (hi : i < t.length)
    (hp : rfindNl t i (min (i + csize) t.length) = some p)
    (hq : i + 6 * csize / 10 < p) :
    chunkLoop t csize (fuel + 1) i
      = pySlice t i p :: chunkLoop t csize fuel p ∧
    (t.drop p).head? = some '\n' ∧
    chunk_text c5T 55
      = [List.replicate 50 'a', '\n' :: List.replicate 10 'b'] := by
  have hse : stepEnd t csize i = p := by
    unfold stepEnd
    rw [hp]
    show (if i + 6 * csize / 10 < p then p else min (i + csize) t.length) = p
    rw [if_pos hq]
  refine ⟨?_, ?_, by decide⟩
  · simp only [chunkLoop, if_pos hi, hse]
  · have hspec := rfindNl_spec hp
    have hplen : p < t.length := lt_of_lt_of_le hspec.2.1 (min_le_right _ _)
    have hget : t[p]? = some '\n' := by
      rw [List.getElem?_eq_getElem hplen]
      have h3 := hspec.2.2
      rw [List.getD_eq_getElem?_getD, List.getElem?_eq_getElem hplen] at h3
      simpa using h3
    rw [List.head?_drop, hget]

/-- Witness for `newline_snap_amended` on the spec's example text with the
qualifying newline at position 50. -/
theorem newline_snap_amended_witness :
    0 < c5T.length ∧
    rfindNl c5T 0 (min (0 + 55) c5T.length) = some 50 ∧
    0 + 6 * 55 / 10 < 50 ∧
    chunkLoop c5T 55 (60 + 1) 0
      = pySlice c5T 0 50 :: chunkLoop c5T 55 60 50 :=
  ⟨by decide, by decide, by decide,
   (newline_snap_amended c5T 55 0 50 60 (by decide) (by decide)
     (by decide)).1⟩

theorem sumLen_nil : sumLen [] = 0 := rfl

theorem build_c6_eq :
    build_messages_with_limit [c6sys, c6A, c6B, c6C] 8000
      = [c6sys, c6B, c6C] := by
  have hA : c6A.content.length = 4000 := List.length_replicate _ _
  have hB : c6B.content.length = 4000 := List.length_replicate _ _
  have hC : c6C.content.length = 4000 := List.length_replicate _ _
  show c6sys ::
      (takeWhileBudget 8000 ([c6A, c6B, c6C] : List Msg).reverse 0).reverse
      = [c6sys, c6B, c6C]
  have hrev : ([c6A, c6B, c6C] : List Msg).reverse = [c6C, c6B, c6A] := by
    simp
  rw [hrev]
  rw [takeWhileBudget,
    if_neg (show ¬ 8000 < 0 + c6C.content.length by rw [hC]; omega)]
  rw [takeWhileBudget,
    if_neg (show ¬ 8000 < 0 + c6C.content.length + c6B.content.length by
      rw [hB, hC]; omega)]
  rw [takeWhileBudget,
    if_pos (show 8000 <
        0 + c6C.content.length + c6B.content.length + c6A.content.length by
      rw [hA, hB, hC]; omega)]
  simp

theorem c6_tail_sum :
    sumLen (([c6sys, c6A, c6B, c6C].drop 1).drop 1) ≤ 8000 := by
  show sumLen [c6B, c6C] ≤ 8000
  have hB : c6B.content.length = 4000 := List.length_replicate _ _
  have hC : c6C.content.length = 4000 := List.length_replicate _ _
  rw [sumLen_cons, sumLen_cons, hB, hC, sumLen_nil]

/-- Claim C6 (confirmed): the non-system part of the trimmer's output is a
contiguous trailing run of the history (a suffix, expressed via `drop`), it
is the longest trailing run whose total content length fits the budget, and
on the spec's concrete 4000/4000/4000-character history with budget 8000 the
result is `[system "S", assistant "B", user "C"]`. -/
theorem trim_longest_trailing_run (H : List Msg) (B : Nat) :
    (∃ k, (build_messages_with_limit H B).drop 1 = (H.drop 1).drop k) ∧
    (∀ j, sumLen ((H.drop 1).drop j) ≤ B →
      ((H.drop 1).drop j).length
        ≤ ((build_messages_with_limit H B).drop 1).length) ∧
    build_messages_with_limit [c6sys, c6A, c6B, c6C] 8000
      = [c6sys, c6B, c6C] :=
  ⟨build_messages_drop_eq_drop H B,
   fun j hj => build_messages_longest H B j hj,
   build_c6_eq⟩

/-- Witness for `trim_longest_trailing_run`: on the spec's example history
the trailing run `[B, C]` fits the budget 8000 and is no longer than the
trimmer's output. -/
theorem trim_longest_trailing_run_witness :
    sumLen (([c6sys, c6A, c6B, c6C].drop 1).drop 1) ≤ 8000 ∧
    (([c6sys, c6A, c6B, c6C].drop 1).drop 1).length
      ≤ ((build_messages_with_limit [c6sys, c6A, c6B, c6C] 8000).drop 1).length :=
  ⟨c6_tail_sum,
   (trim_longest_trailing_run [c6sys, c6A, c6B, c6C] 8000).2.1 1 c6_tail_sum⟩

/-- Claim C7 (confirmed): chunk size bound — for `M > 0` every element of
`chunk_text T M` has length at most `M`. -/
theorem chunk_size_bound (T : List Char) (M : Int) (hM : 0 < M) :
    ∀ c ∈ chunk_text T M, (c.length : Int) ≤ M := by
  intro c hc
  unfold chunk_text at hc
  by_cases hT : T = []
  · rw [if_pos (Or.inr hT), if_pos hT] at hc
    simp at hc
  · rw [if_neg (by push_neg; exact ⟨by omega, hT⟩)] at hc
    have h1 : c.length ≤ M.toNat := chunkLoop_chunk_le T M.toNat _ _ c hc
    omega

/-- Witness for `chunk_size_bound` at `T = "abcdefghij"`, `M = 4`, on the
first chunk `"abcd"`. -/
theorem chunk_size_bound_witness :
    (0 : Int) < 4 ∧
    "abcd".data ∈ chunk_text "abcdefghij".data 4 ∧
    (("abcd".data : List Char).length : Int) ≤ 4 :=
  ⟨by decide, by decide,
   chunk_size_bound "abcdefghij".data 4 (by decide) "abcd".data (by decide)⟩

/-- Claim C8 (refuted as stated): changing the chunking threshold does NOT
always recompute the chunks — with chunks computed at `max_chars = 10` on a
30-character file and the threshold raised to 20, the regeneration guard
`len(chunks[0]) > chunk_chars` is false (10 ≤ 20), so the stale chunks and
the current index 2 are kept instead of `chunk_text full 20` with index 0. -/
theorem rechunk_counterexample :
    update_chunks c8full (some (chunk_text c8full 10)) 2 20
      ≠ (some (chunk_text c8full 20), 0) := by decide

/-- Claim C8 (amended): chunks are recomputed with the new `max_chars` and
`chunk_index` reset to 0 only when no chunks exist yet or the first stored
chunk is longer than the new `max_chars`; in that case the new chunks'
concatenation equals `full_text`.  In every other threshold change the
stored chunks and index are left unchanged. -/
theorem rechunk_amended (full : List Char)
    (chunks : Option (List (List Char))) (idx : Nat) (cc : Int) :
    ((full.length : Int) > cc →
      (chunks = none ∨ ∃ chs, chunks = some chs ∧ chs ≠ [] ∧
        ((chs.headD []).length : Int) > cc) →
      update_chunks full chunks idx cc = (some (chunk_text full cc), 0) ∧
      (chunk_text full cc).flatten = full) ∧
    ((full.length : Int) > cc → ∀ chs, chunks = some chs →
      ¬ (chs ≠ [] ∧ ((chs.headD []).length : Int) > cc) →
      update_chunks full chunks idx cc = (some chs, idx)) := by
  constructor
  · intro hneed htrig
    exact ⟨update_chunks_regen full chunks idx cc hneed htrig,
      chunk_text_join full cc⟩
  · intro hneed chs hchs hno
    rw [hchs]
    exact update_chunks_keep full chs idx cc hneed hno

/-- Witness for `rechunk_amended`: lowering the threshold to 5 recomputes
and resets the index; raising it to 20 keeps the stale chunks and index. -/
theorem rechunk_amended_witness :
    ((c8full.length : Int) > 5) ∧
    update_chunks c8full (some (chunk_text c8full 10)) 2 5
      = (some (chunk_text c8full 5), 0) ∧
    update_chunks c8full (some (chunk_text c8full 10)) 2 20
      = (some (chunk_text c8full 10), 2) :=
  ⟨by decide,
   ((rechunk_amended c8full (some (chunk_text c8full 10)) 2 5).1 (by decide)
     (Or.inr ⟨chunk_text c8full 10, rfl, by decide, by decide⟩)).1,
   (rechunk_amended c8full (some (chunk_text c8full 10)) 2 20).2 (by decide)
     (chunk_text c8full 10) rfl (by decide)⟩

/-- Claim C9 (confirmed): degenerate chunking and misconfiguration
fallback — `chunk_text "" 100 = []`, `chunk_text "short" 0 = ["short"]`,
and whenever the configured threshold yields `max_chars ≤ 0` the visible
slice of a non-empty attached file equals the whole `full_text` (for any
well-formed chunk state: none, or a stored list whose first chunk is
non-empty). -/
theorem chunk_degenerate_fallback :
    chunk_text "".data 100 = [] ∧
    chunk_text "short".data 0 = ["short".data] ∧
    ∀ (full : List Char) (chunks : Option (List (List Char))) (idx : Nat)
      (cc : Int), cc ≤ 0 → full ≠ [] →
      (chunks = none ∨ ∃ chs, chunks = some chs ∧
        0 < (chs.headD []).length) →
      visible_context full chunks idx cc = full :=
  ⟨by decide, by decide, fun full chunks idx cc hcc hfull hok =>
    visible_context_fallback full chunks idx cc hcc hfull hok⟩

/-- Witness for `chunk_degenerate_fallback` at `full = "short"`, no stored
chunks, threshold 0. -/
theorem chunk_degenerate_fallback_witness :
    (0 : Int) ≤ 0 ∧ ("short".data : List Char) ≠ [] ∧
    visible_context "short".data none 0 0 = "short".data :=
  ⟨by decide, by decide,
   chunk_degenerate_fallback.2.2 "short".data none 0 0 (by decide) (by decide)
     (Or.inl rfl)⟩

/-- Claim C10 (confirmed): `chunk_text` is total and produces only
non-empty chunks — for every text and every chunk size the loop terminates
having consumed the whole text (the flattened chunks equal the input),
every chunk is non-empty, and the number of chunks never exceeds the length
of the input. -/
theorem chunk_text_total_nonempty (T : List Char) (M : Int) :
    (chunk_text T M).flatten = T ∧
    (∀ c ∈ chunk_text T M, c ≠ []) ∧
    (chunk_text T M).length ≤ T.length := by
  refine ⟨chunk_text_join T M, fun c hc => chunk_text_mem_ne_nil hc, ?_⟩
  unfold chunk_text
  by_cases hz : M ≤ 0 ∨ T = []
  · rw [if_pos hz]
    by_cases hT : T = []
    · simp [hT]
    · rw [if_neg hT]
      have := List.length_pos.mpr hT
      simpa using this
  · rw [if_neg hz]
    push_neg at hz
    have hc : 1 ≤ M.toNat := by omega
    simpa using chunkLoop_count_le T M.toNat hc T.length 0
